import Mathlib

/-!
Verification development for the `ore-hq-client` mining worker
(`src/mine.rs`).  The Rust source is shallowly embedded below:

* machine integers (`u64`, `u32`, `u8`) become `Nat`, with explicit
  `% 2 ^ w` or `< 2 ^ w` bounds where overflow or byte encoding matters;
* byte buffers (`Vec<u8>`, `[u8; n]`) become `List Nat`;
* the opaque collaborators of the spec — the hash family `H` provided by
  `drillx_2::get_hashes_with_memory`, the signer `Keypair::sign_message`,
  the wall clock, the elapsed-seconds timer of `Instant`, and the
  process-wide cancellation flag — become explicit function parameters
  (`Hf`, `sign`, `clock`, `elapsed`, `run`), so the embedded code is a
  pure function of them;
* the per-thread search loop of `mine` becomes a structurally recursive
  function on an explicit fuel that is a proven upper bound on the number
  of iterations (the loop increments `nonce` by 1 and always breaks once
  `nonce` reaches `nonce_range.end`).
-/

/-- `n.to_le_bytes()` truncated to `k` bytes: little-endian byte list of a
natural number. -/
def toLEbytes : Nat → Nat → List Nat
  | 0, _ => []
  | k + 1, n => n % 256 :: toLEbytes k (n / 256)

/-- The 8-byte little-endian encoding used for every `u64` on the wire
(`u64::to_le_bytes`). -/
def toLE8 (n : Nat) : List Nat := toLEbytes 8 n

/-- `u64::from_le_bytes`: recombine a little-endian byte list into a
natural number. -/
def fromLE (bs : List Nat) : Nat := bs.foldr (fun b acc => b + 256 * acc) 0

theorem toLEbytes_length (k n : Nat) : (toLEbytes k n).length = k := by
  induction k generalizing n with
  | zero => rfl
  | succ k ih => simp [toLEbytes, ih]

theorem toLE8_length (n : Nat) : (toLE8 n).length = 8 :=
  toLEbytes_length 8 n

theorem fromLE_toLEbytes (k n : Nat) : fromLE (toLEbytes k n) = n % 256 ^ k := by
  induction k generalizing n with
  | zero => simp [toLEbytes, fromLE, Nat.mod_one]
  | succ k ih =>
    have hrec : fromLE (toLEbytes k (n / 256)) = n / 256 % 256 ^ k := ih (n / 256)
    have hr : n % 256 < 256 := Nat.mod_lt _ (by norm_num)
    have hqk : n / 256 % 256 ^ k < 256 ^ k :=
      Nat.mod_lt _ (Nat.pos_pow_of_pos _ (by norm_num))
    have hq := Nat.div_add_mod (n / 256) (256 ^ k)
    have h2 : 256 * (n / 256)
        = 256 * 256 ^ k * (n / 256 / 256 ^ k) + 256 * (n / 256 % 256 ^ k) := by
      calc 256 * (n / 256)
          = 256 * (256 ^ k * (n / 256 / 256 ^ k) + n / 256 % 256 ^ k) := by rw [hq]
        _ = 256 * 256 ^ k * (n / 256 / 256 ^ k) + 256 * (n / 256 % 256 ^ k) := by ring
    have hsplit : n % 256 ^ (k + 1) = n % 256 + 256 * (n / 256 % 256 ^ k) := by
      conv_lhs => rw [← Nat.div_add_mod n 256]
      rw [pow_succ, mul_comm (256 ^ k) 256]
      calc (256 * (n / 256) + n % 256) % (256 * 256 ^ k)
          = (256 * 256 ^ k * (n / 256 / 256 ^ k)
              + (256 * (n / 256 % 256 ^ k) + n % 256)) % (256 * 256 ^ k) := by
            congr 1; omega
        _ = (256 * (n / 256 % 256 ^ k) + n % 256) % (256 * 256 ^ k) :=
            Nat.mul_add_mod _ _ _
        _ = 256 * (n / 256 % 256 ^ k) + n % 256 := Nat.mod_eq_of_lt (by nlinarith)
        _ = n % 256 + 256 * (n / 256 % 256 ^ k) := by ring
    have hcons : fromLE (n % 256 :: toLEbytes k (n / 256))
        = n % 256 + 256 * fromLE (toLEbytes k (n / 256)) := rfl
    show fromLE (n % 256 :: toLEbytes k (n / 256)) = n % 256 ^ (k + 1)
    rw [hcons, hrec, hsplit]

theorem fromLE_toLE8 (n : Nat) (h : n < 2 ^ 64) : fromLE (toLE8 n) = n := by
  have h256 : (256 : Nat) ^ 8 = 2 ^ 64 := by norm_num
  rw [toLE8, fromLE_toLEbytes, h256, Nat.mod_eq_of_lt h]

/-! ## Wire codec (outbound frames)

Embeds the frame assembly in `mine` (Ready: `bin_data.push(0u8)` followed
by public key, timestamp bytes and signature bytes; BestSolution: the
57-byte header `[type, digest, nonce, pubkey]` followed by the signature
bytes), together with reference decoders written from the documented
layouts. -/

/-- Ready frame: `0x00 ‖ pk (32B) ‖ timestamp (8B LE) ‖ signature ASCII`. -/
def encodeReady (pk : List Nat) (ts : Nat) (sig : List Nat) : List Nat :=
  0 :: (pk ++ toLE8 ts ++ sig)

/-- The 24-byte message `best_hash.digest ‖ best_nonce` that is signed for a
BestSolution frame (`hash_nonce_message` in `mine`). -/
def hashNonceMessage (digest : List Nat) (nonce : Nat) : List Nat :=
  digest ++ toLE8 nonce

/-- BestSolution frame:
`0x02 ‖ digest (16B) ‖ nonce (8B LE) ‖ pk (32B) ‖ signature ASCII`. -/
def encodeBestSolution (digest : List Nat) (nonce : Nat) (pk sig : List Nat) :
    List Nat :=
  2 :: (digest ++ toLE8 nonce ++ pk ++ sig)

/-- Reference decoder for a Ready frame: fixed header sizes, remainder is
the signature. -/
def decodeReady (b : List Nat) : Option (List Nat × Nat × List Nat) :=
  if b.head? = some 0 ∧ 41 ≤ b.length then
    some ((b.drop 1).take 32, fromLE ((b.drop 33).take 8), b.drop 41)
  else none

/-- Reference decoder for a BestSolution frame: fixed header sizes,
remainder is the signature. -/
def decodeBestSolution (b : List Nat) :
    Option (List Nat × Nat × List Nat × List Nat) :=
  if b.head? = some 2 ∧ 57 ≤ b.length then
    some ((b.drop 1).take 16, fromLE ((b.drop 17).take 8),
      ((b.drop 25).take 32, b.drop 57))
  else none

theorem take_append_len {α : Type} (xs ys : List α) (n : Nat)
    (h : xs.length = n) : (xs ++ ys).take n = xs := by
  subst h; simp

theorem drop_append_len {α : Type} (xs ys : List α) (n : Nat)
    (h : xs.length = n) : (xs ++ ys).drop n = ys := by
  subst h; simp

theorem decodeReady_encodeReady (pk : List Nat) (ts : Nat) (sig : List Nat)
    (hpk : pk.length = 32) (hts : ts < 2 ^ 64) :
    decodeReady (encodeReady pk ts sig) = some (pk, ts, sig) := by
  have e1 : encodeReady pk ts sig = ([0] ++ pk) ++ (toLE8 ts ++ sig) := by
    simp [encodeReady]
  have e2 : encodeReady pk ts sig = ([0] ++ pk ++ toLE8 ts) ++ sig := by
    simp [encodeReady]
  have hdrop1 : (encodeReady pk ts sig).drop 1 = pk ++ (toLE8 ts ++ sig) := by
    simp [encodeReady]
  have htake32 : ((encodeReady pk ts sig).drop 1).take 32 = pk := by
    rw [hdrop1, take_append_len pk _ 32 hpk]
  have hdrop33 : (encodeReady pk ts sig).drop 33 = toLE8 ts ++ sig := by
    rw [e1, drop_append_len ([0] ++ pk) _ 33 (by simp [hpk])]
  have htake8 : ((encodeReady pk ts sig).drop 33).take 8 = toLE8 ts := by
    rw [hdrop33, take_append_len _ _ 8 (toLE8_length ts)]
  have hdrop41 : (encodeReady pk ts sig).drop 41 = sig := by
    rw [e2, drop_append_len _ _ 41 (by simp [hpk, toLE8_length])]
  have hlen : 41 ≤ (encodeReady pk ts sig).length := by
    rw [e2]; simp [hpk, toLE8_length]; omega
  unfold decodeReady
  rw [if_pos ⟨rfl, hlen⟩, htake32, htake8, hdrop41, fromLE_toLE8 ts hts]

theorem decodeBest_encodeBest (digest : List Nat) (nonce : Nat) (pk sig : List Nat)
    (hd : digest.length = 16) (hpk : pk.length = 32) (hn : nonce < 2 ^ 64) :
    decodeBestSolution (encodeBestSolution digest nonce pk sig)
      = some (digest, nonce, pk, sig) := by
  have e1 : encodeBestSolution digest nonce pk sig
      = ([2] ++ digest) ++ (toLE8 nonce ++ (pk ++ sig)) := by
    simp [encodeBestSolution]
  have e2 : encodeBestSolution digest nonce pk sig
      = ([2] ++ digest ++ toLE8 nonce) ++ (pk ++ sig) := by
    simp [encodeBestSolution]
  have e3 : encodeBestSolution digest nonce pk sig
      = ([2] ++ digest ++ toLE8 nonce ++ pk) ++ sig := by
    simp [encodeBestSolution]
  have hdrop1 : (encodeBestSolution digest nonce pk sig).drop 1
      = digest ++ (toLE8 nonce ++ (pk ++ sig)) := by
    simp [encodeBestSolution]
  have htake16 : ((encodeBestSolution digest nonce pk sig).drop 1).take 16 = digest := by
    rw [hdrop1, take_append_len digest _ 16 hd]
  have hdrop17 : (encodeBestSolution digest nonce pk sig).drop 17
      = toLE8 nonce ++ (pk ++ sig) := by
    rw [e1, drop_append_len ([2] ++ digest) _ 17 (by simp [hd])]
  have htake8 : ((encodeBestSolution digest nonce pk sig).drop 17).take 8
      = toLE8 nonce := by
    rw [hdrop17, take_append_len _ _ 8 (toLE8_length nonce)]
  have hdrop25 : (encodeBestSolution digest nonce pk sig).drop 25 = pk ++ sig := by
    rw [e2, drop_append_len _ _ 25 (by simp [hd, toLE8_length])]
  have htake32 : ((encodeBestSolution digest nonce pk sig).drop 25).take 32 = pk := by
    rw [hdrop25, take_append_len pk sig 32 hpk]
  have hdrop57 : (encodeBestSolution digest nonce pk sig).drop 57 = sig := by
    rw [e3, drop_append_len _ _ 57 (by simp [hd, hpk, toLE8_length])]
  have hlen : 57 ≤ (encodeBestSolution digest nonce pk sig).length := by
    rw [e3]; simp [hd, hpk, toLE8_length]; omega
  unfold decodeBestSolution
  rw [if_pos ⟨rfl, hlen⟩, htake16, htake8, htake32, hdrop57, fromLE_toLE8 nonce hn]

/-- C10: for every timestamp, public key, best digest, nonce and signature,
the encoded Ready frame is exactly
`0x00 ‖ pk (32B) ‖ timestamp (8B LE) ‖ signature ASCII` and the encoded
BestSolution frame is exactly
`0x02 ‖ digest (16B) ‖ nonce (8B LE) ‖ pk (32B) ‖ signature ASCII`, the
signed BestSolution message `digest ‖ nonce` is 24 bytes long, and the
reference decoders recover the same fields from each frame. -/
theorem claim_C10_roundtrip (pk : List Nat) (ts : Nat) (sig : List Nat)
    (digest : List Nat) (nonce : Nat) (sig2 : List Nat)
    (hpk : pk.length = 32) (hd : digest.length = 16)
    (hts : ts < 2 ^ 64) (hn : nonce < 2 ^ 64) :
    encodeReady pk ts sig = 0 :: (pk ++ toLE8 ts ++ sig)
      ∧ encodeBestSolution digest nonce pk sig2
          = 2 :: (digest ++ toLE8 nonce ++ pk ++ sig2)
      ∧ (hashNonceMessage digest nonce).length = 24
      ∧ decodeReady (encodeReady pk ts sig) = some (pk, ts, sig)
      ∧ decodeBestSolution (encodeBestSolution digest nonce pk sig2)
          = some (digest, nonce, pk, sig2) := by
  refine ⟨rfl, rfl, ?_, decodeReady_encodeReady pk ts sig hpk hts,
    decodeBest_encodeBest digest nonce pk sig2 hd hpk hn⟩
  simp [hashNonceMessage, hd, toLE8_length]

/-- C10 witness: concrete instantiation of the round-trip theorem. -/
theorem claim_C10_roundtrip_witness :
    decodeReady (encodeReady (List.replicate 32 7) 1700000000 [65, 66])
        = some (List.replicate 32 7, 1700000000, [65, 66])
      ∧ decodeBestSolution
          (encodeBestSolution (List.replicate 16 3) 12345 (List.replicate 32 7) [67])
        = some (List.replicate 16 3, 12345, List.replicate 32 7, [67]) :=
  ⟨(claim_C10_roundtrip (List.replicate 32 7) 1700000000 [65, 66]
      (List.replicate 16 3) 12345 [67] (by decide) (by decide)
      (by norm_num) (by norm_num)).2.2.2.1,
   (claim_C10_roundtrip (List.replicate 32 7) 1700000000 [65, 66]
      (List.replicate 16 3) 12345 [67] (by decide) (by decide)
      (by norm_num) (by norm_num)).2.2.2.2⟩

/-! ## Inbound message processing (`process_message`)

`ServerMessage` and the binary parse of a `StartMining` frame.  Byte reads
`b[i]` are embedded as `b.getD i 0`; the indices the Rust code actually
dereferences (and which panic when out of bounds) are transcribed
separately in `processReads`. -/

inductive ServerMessage where
  | startMining (challenge : List Nat) (nonceStart nonceEnd cutoff : Nat)
deriving DecidableEq

inductive WsMessage where
  | text (t : List Nat)
  | binary (b : List Nat)
  | ping
  | pong
  | close
  | frameOther
deriving DecidableEq

/-- The `StartMining` parse in `process_message`: 32 challenge bytes from
index 1, then three 8-byte little-endian u64 fields at indices 33, 41, 49. -/
def parseStartMining (b : List Nat) : ServerMessage :=
  let hashBytes := (List.range 32).map (fun i => b.getD (i + 1) 0)
  let cutoff := fromLE ((List.range 8).map (fun i => b.getD (i + 33) 0))
  let nonceStart := fromLE ((List.range 8).map (fun i => b.getD (i + 41) 0))
  let nonceEnd := fromLE ((List.range 8).map (fun i => b.getD (i + 49) 0))
  .startMining hashBytes nonceStart nonceEnd cutoff

/-- `process_message`: first component is the list of `ServerMessage`s sent
to the session channel, second component is `true` exactly when the
returned control flow is `Break` (a Close frame). -/
def process_message (m : WsMessage) : List ServerMessage × Bool :=
  match m with
  | .text _ => ([], false)
  | .binary b =>
    if b.getD 0 0 = 0 then
      if b.length < 49 then ([], false)
      else ([parseStartMining b], false)
    else ([], false)
  | .ping => ([], false)
  | .pong => ([], false)
  | .close => ([], true)
  | .frameOther => ([], false)

/-- The byte indices `process_message` dereferences on a binary frame `b`:
`b[0]` unconditionally, and for a type-0 frame of length at least 49 the
four field loops `b[i + 1]` (32 iterations), `b[i + 33]`, `b[i + 41]` and
`b[i + 49]` (8 iterations each). -/
def processReads (b : List Nat) : List Nat :=
  0 :: (if b.getD 0 0 = 0 ∧ 49 ≤ b.length then
    (List.range 32).map (fun i => i + 1) ++ (List.range 8).map (fun i => i + 33)
      ++ (List.range 8).map (fun i => i + 41) ++ (List.range 8).map (fun i => i + 49)
  else [])

/-- C4 counterexample: the claim asserts every dereferenced index is below
the frame length, and in particular that this covers the empty binary frame
and type-0x00 frames of length 49 to 56.  Both particulars fail on the
code: the empty frame has its type byte read at index 0 ≥ 0, and a 49-byte
type-0x00 frame has its last nonce byte read at index 56 ≥ 49. -/
theorem claim_C4_counterexample :
    (∃ i ∈ processReads ([] : List Nat), ([] : List Nat).length ≤ i)
      ∧ (∃ i ∈ processReads (List.replicate 49 0), (List.replicate 49 0).length ≤ i)
      ∧ ¬ (∀ i ∈ processReads (List.replicate 49 0),
            i < (List.replicate 49 0).length) := by
  decide

/-- C4 amended: for every nonempty inbound binary frame whose type byte is
nonzero, or whose length is below 49, or whose length is at least 57, every
byte index dereferenced by `process_message` is below the frame length.
(The excluded cases — the empty frame, and type-0x00 frames of length 49
to 56 — are exactly the inputs on which `process_message` indexes out of
bounds.) -/
theorem claim_C4_reads_in_bounds (b : List Nat) (hne : b ≠ [])
    (h : b.getD 0 0 ≠ 0 ∨ b.length < 49 ∨ 57 ≤ b.length) :
    ∀ i ∈ processReads b, i < b.length := by
  intro i hi
  have hpos : 0 < b.length := List.length_pos.mpr hne
  unfold processReads at hi
  rcases List.mem_cons.mp hi with h0 | hrest
  · omega
  · split at hrest
    · rename_i hcond
      rcases h with hty | hlen | hlen
      · exact absurd hcond.1 hty
      · omega
      · simp only [List.mem_append, List.mem_map, List.mem_range] at hrest
        rcases hrest with ((⟨j, hj, rfl⟩ | ⟨j, hj, rfl⟩) | ⟨j, hj, rfl⟩) | ⟨j, hj, rfl⟩ <;>
          omega
    · simp at hrest

/-- C4 amended, witness: on a full 57-byte `StartMining` frame, the last
field byte read (index 56) is in bounds. -/
theorem claim_C4_reads_in_bounds_witness :
    56 ∈ processReads (List.replicate 57 0) ∧ 56 < (List.replicate 57 0).length :=
  ⟨by decide,
   claim_C4_reads_in_bounds (List.replicate 57 0) (by decide) (by decide) 56
     (by decide)⟩

/-- C5: every type-0x00 binary frame shorter than 49 bytes is rejected as
malformed: `process_message` dispatches no `StartMining` message and does
not break the session's receive loop (the session remains in Running). -/
theorem claim_C5_short_frame_rejected (b : List Nat) (hty : b.head? = some 0)
    (hlen : b.length < 49) :
    process_message (.binary b) = ([], false) := by
  cases b with
  | nil => simp at hty
  | cons x xs =>
    have hx : x = 0 := by simpa using hty
    subst hx
    simp only [List.length_cons] at hlen
    simp [process_message]
    omega

/-- C5 witness: a 48-byte binary frame starting 0x00 dispatches nothing and
the session keeps running. -/
theorem claim_C5_short_frame_rejected_witness :
    process_message (.binary (List.replicate 48 0)) = ([], false) :=
  claim_C5_short_frame_rejected (List.replicate 48 0) (by decide) (by decide)

/-! ## Deadline policy (cutoff adjustment in `mine`)

`let mut cutoff = cutoff.saturating_sub(args.buffer as u64);
 if cutoff > 60 { cutoff = 55; }` -/

/-- The effective cutoff computed on entry to the `StartMining` arm:
saturating subtraction of the buffer, then the historical `> 60 ⇒ 55`
replacement. -/
def effectiveCutoff (cutoff buffer : Nat) : Nat :=
  if 60 < cutoff - buffer then 55 else cutoff - buffer

/-- C2 counterexample: the claimed formula `min 55 (max 0 (cutoff − buffer))`
does not match the code on the band (55, 60]: a job with `cutoff = 3600` and
`--buffer = 3542` runs with an effective cutoff of 58 seconds, not 55. -/
theorem claim_C2_counterexample :
    effectiveCutoff 3600 3542 = 58
      ∧ effectiveCutoff 3600 3542 ≠ min 55 (max 0 (3600 - 3542)) := by
  decide

/-- C2 amended: the effective cutoff equals the claimed
`min 55 (max 0 (cutoff − buffer))` except on the band
`55 < cutoff − buffer ≤ 60`, where the code keeps `cutoff − buffer`
unchanged; the effective cutoff never exceeds 60; and a job with
`cutoff = 3600` is clamped to 55 seconds whenever `buffer < 3540`
(in particular for the default `--buffer = 0`). -/
theorem claim_C2_effective_cutoff (cutoff buffer : Nat) :
    (cutoff - buffer ≤ 55 ∨ 60 < cutoff - buffer
        → effectiveCutoff cutoff buffer = min 55 (max 0 (cutoff - buffer)))
      ∧ (55 < cutoff - buffer → cutoff - buffer ≤ 60
        → effectiveCutoff cutoff buffer = cutoff - buffer)
      ∧ effectiveCutoff cutoff buffer ≤ 60
      ∧ (buffer + 60 < cutoff → effectiveCutoff cutoff buffer = 55) := by
  unfold effectiveCutoff
  refine ⟨?_, ?_, ?_, ?_⟩ <;> (intros; split <;> omega)

/-- C2 amended, witness: a `cutoff = 3600` job with the default buffer runs
with an effective cutoff of 55 seconds. -/
theorem claim_C2_effective_cutoff_witness : effectiveCutoff 3600 0 = 55 :=
  (claim_C2_effective_cutoff 3600 0).2.2.2 (by decide)

/-! ## Search engine (per-thread loop in the `StartMining` arm of `mine`)

A hash produced by `drillx_2::get_hashes_with_memory` is abstracted as its
16-byte digest `d` plus the scalar returned by `difficulty()`.  The hash
family is a parameter `H : Nat → List MHash` (the challenge is already
applied); the cancellation flag read and the elapsed-seconds read at a given
nonce iteration are the oracles `run` and `elapsed`. -/

structure MHash where
  d : List Nat
  difficulty : Nat
deriving DecidableEq

/-- `drillx_2::Hash::default()`: the all-zero digest. -/
def defaultHash : MHash := ⟨List.replicate 16 0, 0⟩

/-- Per-thread loop state: the mutable locals of the search loop. -/
structure SearchState where
  nonce : Nat
  bestNonce : Nat
  bestDifficulty : Nat
  bestHash : MHash
  totalHashes : Nat
deriving DecidableEq

/-- What a thread returns on `break`:
`Some((best_nonce, best_difficulty, best_hash, total_hashes))`. -/
structure ThreadResult where
  bestNonce : Nat
  bestDifficulty : Nat
  bestHash : MHash
  totalHashes : Nat
deriving DecidableEq

def toResult (st : SearchState) : ThreadResult :=
  ⟨st.bestNonce, st.bestDifficulty, st.bestHash, st.totalHashes⟩

/-- One `for hx in get_hashes_with_memory(..)` iteration: count the hash
and update the best on strict improvement
(`difficulty.gt(&best_difficulty)`). -/
def hashStep (s : SearchState) (hx : MHash) : SearchState :=
  if s.bestDifficulty < hx.difficulty then
    { s with
      totalHashes := s.totalHashes + 1,
      bestNonce := s.nonce,
      bestDifficulty := hx.difficulty,
      bestHash := hx }
  else { s with totalHashes := s.totalHashes + 1 }

/-- The whole `for hx in ..` loop over the hashes of the current nonce. -/
def hashFold (hxs : List MHash) (st : SearchState) : SearchState :=
  hxs.foldl hashStep st

/-- One iteration of the search loop: what the loop body does with the
state before the body runs. -/
inductive StepRes where
  | abandon
  | stop (r : ThreadResult)
  | next (st : SearchState)
deriving DecidableEq

/-- The body of `loop { .. }` in the spawned search thread: cancellation
check, hashing, range-end check, throttled cutoff check, increment. -/
def mineStep (run : Nat → Bool) (elapsed : Nat → Nat) (cutoff nonceEnd : Nat)
    (H : Nat → List MHash) (st : SearchState) : StepRes :=
  if run st.nonce = false then .abandon
  else
    let st' := hashFold (H st.nonce) st
    if nonceEnd ≤ st'.nonce then .stop (toResult st')
    else if st'.nonce % 100 = 0 ∧ cutoff ≤ elapsed st'.nonce
        ∧ 8 ≤ st'.bestDifficulty then .stop (toResult st')
    else .next { st' with nonce := st'.nonce + 1 }

/-- The search loop, by structural recursion on a fuel that is an upper
bound on the number of iterations (the loop always breaks once `nonce`
reaches `nonce_range.end`, and `nonce` grows by 1 per iteration, so
`searchFuel` below is sufficient and the fuel-0 case is unreachable). -/
def mineGo (run : Nat → Bool) (elapsed : Nat → Nat) (cutoff nonceEnd : Nat)
    (H : Nat → List MHash) : Nat → SearchState → Option ThreadResult
  | 0, _ => none
  | fuel + 1, st =>
    match mineStep run elapsed cutoff nonceEnd H st with
    | .abandon => none
    | .stop r => some r
    | .next st' => mineGo run elapsed cutoff nonceEnd H fuel st'

/-- The nonces the loop hashes, with the same control flow as `mineGo`:
the cancellation check precedes the hashing, so an abandoned iteration
contributes no nonce. -/
def mineVisits (run : Nat → Bool) (elapsed : Nat → Nat) (cutoff nonceEnd : Nat)
    (H : Nat → List MHash) : Nat → SearchState → List Nat
  | 0, _ => []
  | fuel + 1, st =>
    match mineStep run elapsed cutoff nonceEnd H st with
    | .abandon => []
    | .stop _ => [st.nonce]
    | .next st' => st.nonce :: mineVisits run elapsed cutoff nonceEnd H fuel st'

/-- Sufficient fuel for `mineGo` starting at `nonceStart`. -/
def searchFuel (nonceStart nonceEnd : Nat) : Nat := nonceEnd + 1 - nonceStart + 1

/-- Initial loop state: `nonce = best_nonce = first_nonce`,
`best_difficulty = 0`, `best_hash = Hash::default()`, `total_hashes = 0`. -/
def initState (firstNonce : Nat) : SearchState :=
  ⟨firstNonce, firstNonce, 0, defaultHash, 0⟩

/-- `let nonces_per_thread = 10_000`. -/
def noncesPerThread : Nat := 10000

/-- `u64` wrapping arithmetic (release-mode semantics): the source computes
`first_nonce = nonce_range.start + (nonces_per_thread * (i.id as u64))` in
`u64`, so the value is the mathematical sum reduced modulo `2 ^ 64`. -/
def wrap64 (n : Nat) : Nat := n % 2 ^ 64

/-- A `StartMining` job as consumed by the mining arm. -/
structure Job where
  challenge : List Nat
  nonceStart : Nat
  nonceEnd : Nat
  cutoff : Nat

/-- The session's environment: identity and signer, the opaque hash family
(challenge-indexed), the cancellation-flag and elapsed-time oracles for the
search threads, the enumerated core ids, the two CLI arguments, and the
wall clock (indexed by how many times it has been read). -/
structure Ctx where
  pk : List Nat
  sign : List Nat → List Nat
  Hf : List Nat → Nat → List MHash
  run : Nat → Bool
  elapsed : Nat → Nat
  coreIds : List Nat
  threads : Nat
  buffer : Nat
  clock : Nat → Nat

/-- The closure spawned for core id `i`: exit immediately when
`i ≥ threads`, else run the search loop from
`first_nonce = nonce_range.start + nonces_per_thread * i`, the sum taken
in `u64` (wrapping modulo `2 ^ 64`). -/
def threadRun (c : Ctx) (j : Job) (i : Nat) : Option ThreadResult :=
  if c.threads ≤ i then none
  else
    let firstNonce := wrap64 (j.nonceStart + noncesPerThread * i)
    mineGo c.run c.elapsed (effectiveCutoff j.cutoff c.buffer) j.nonceEnd
      (c.Hf j.challenge) (searchFuel firstNonce j.nonceEnd) (initState firstNonce)

/-- The nonces hashed by the thread for core id `i`. -/
def threadVisits (c : Ctx) (j : Job) (i : Nat) : List Nat :=
  if c.threads ≤ i then []
  else
    let firstNonce := wrap64 (j.nonceStart + noncesPerThread * i)
    mineVisits c.run c.elapsed (effectiveCutoff j.cutoff c.buffer) j.nonceEnd
      (c.Hf j.challenge) (searchFuel firstNonce j.nonceEnd) (initState firstNonce)

/-- The per-hash difficulties the thread for core id `i` observes: every
hash of every visited nonce. -/
def threadObs (c : Ctx) (j : Job) (i : Nat) : List Nat :=
  (threadVisits c j i).flatMap (fun n => (c.Hf j.challenge n).map MHash.difficulty)

/-- The join-ordered list of thread results (`handles` maps `core_ids` in
order; joins are modelled as succeeding, as the spawned closures return
normally). -/
def roundResults (c : Ctx) (j : Job) : List (Option ThreadResult) :=
  c.coreIds.map (threadRun c j)

/-- The session-best record reduced after the joins. -/
structure BestRecord where
  bestNonce : Nat
  bestDifficulty : Nat
  bestHash : MHash
deriving DecidableEq

/-- `best_nonce = 0; best_difficulty = 0; best_hash = default()` before the
join loop. -/
def initBest : BestRecord := ⟨0, 0, defaultHash⟩

/-- One step of the join loop: add the thread's hash count, take its record
on strict improvement (`difficulty > best_difficulty`). -/
def joinFold (acc : BestRecord × Nat) (h : Option ThreadResult) : BestRecord × Nat :=
  match h with
  | none => acc
  | some r =>
    let total := acc.2 + r.totalHashes
    if acc.1.bestDifficulty < r.bestDifficulty then
      (⟨r.bestNonce, r.bestDifficulty, r.bestHash⟩, total)
    else (acc.1, total)

/-- The full join reduction: best record and summed hash count. -/
def joinReduce (results : List (Option ThreadResult)) : BestRecord × Nat :=
  results.foldl joinFold (initBest, 0)

/-- The record submitted in the BestSolution frame of a round. -/
def roundBest (c : Ctx) (j : Job) : BestRecord :=
  (joinReduce (roundResults c j)).1

/-! ## Session outbound events

The observable outbound behaviour of one connected session: the Ready frame
sent right after the handshake, then, per `StartMining` message taken from
the queue (with the cancellation flag checked first), a BestSolution frame,
a sleep of `5 + buffer` seconds and a fresh Ready frame. -/

inductive OutEvent where
  | frame (b : List Nat)
  | sleep (secs : Nat)
deriving DecidableEq

/-- The Ready frame sent with the `k`-th wall-clock read of the session. -/
def readyFrame (c : Ctx) (k : Nat) : List Nat :=
  encodeReady c.pk (c.clock k) (c.sign (toLE8 (c.clock k)))

/-- The BestSolution frame submitted for a best record `b`. -/
def bestSolutionFrame (c : Ctx) (b : BestRecord) : List Nat :=
  encodeBestSolution b.bestHash.d b.bestNonce c.pk
    (c.sign (hashNonceMessage b.bestHash.d b.bestNonce))

/-- The outbound events of the `StartMining` arm handling job `j` as round
`k`: submit, sleep `5 + buffer`, fresh Ready. -/
def roundEvents (c : Ctx) (k : Nat) (j : Job) : List OutEvent :=
  [.frame (bestSolutionFrame c (roundBest c j)),
   .sleep (5 + c.buffer),
   .frame (readyFrame c (k + 1))]

/-- The session's receive loop over the queued `StartMining` jobs:
`runFlag k` is the cancellation-flag read at the `k`-th loop entry
(`if !running.load(..) { break; }` after `recv()`). -/
def sessionLoop (c : Ctx) (runFlag : Nat → Bool) : Nat → List Job → List OutEvent
  | _, [] => []
  | k, j :: rest =>
    if runFlag k then roundEvents c k j ++ sessionLoop c runFlag (k + 1) rest
    else []

/-- All outbound events of a session: the initial Ready frame, then the
receive loop. -/
def sessionEvents (c : Ctx) (runFlag : Nat → Bool) (jobs : List Job) :
    List OutEvent :=
  .frame (readyFrame c 0) :: sessionLoop c runFlag 0 jobs

/-- Count of outbound frames whose type byte is `t`. -/
def countFrames (t : Nat) (es : List OutEvent) : Nat :=
  es.countP (fun e => match e with
    | .frame b => decide (b.head? = some t)
    | .sleep _ => false)

theorem bestSolutionFrame_head (c : Ctx) (b : BestRecord) :
    (bestSolutionFrame c b).head? = some 2 := rfl

theorem readyFrame_head (c : Ctx) (k : Nat) :
    (readyFrame c k).head? = some 0 := rfl

theorem countFrames_sessionLoop (c : Ctx) (runFlag : Nat → Bool)
    (hrf : ∀ n, runFlag n = true) (jobs : List Job) (k : Nat) :
    countFrames 2 (sessionLoop c runFlag k jobs) = jobs.length
      ∧ countFrames 0 (sessionLoop c runFlag k jobs) = jobs.length := by
  induction jobs generalizing k with
  | nil => simp [sessionLoop, countFrames]
  | cons j rest ih =>
    have h2 := (ih (k + 1)).1
    have h0 := (ih (k + 1)).2
    unfold countFrames at h2 h0 ⊢
    simp only [sessionLoop, hrf, if_true, roundEvents, List.countP_append,
      List.countP_cons, List.countP_nil, List.length_cons,
      bestSolutionFrame_head, readyFrame_head, h2, h0]
    simp
    omega

/-- C6: in every session the first outbound frame is a Ready (type byte
0x00); with the cancellation flag unset, each handled `StartMining` job
produces exactly one BestSolution frame (type byte 0x02), then a sleep of
`5 + buffer` seconds (7 seconds when `--buffer = 2`), then a fresh Ready,
before the next `StartMining` is processed; over the whole session the
type-0x02 frame count equals the number of handled jobs and the type-0x00
frame count exceeds it by the initial Ready. -/
theorem claim_C6_session_ordering (c : Ctx) (runFlag : Nat → Bool)
    (jobs : List Job) (hrf : ∀ n, runFlag n = true) :
    (sessionEvents c runFlag jobs).head? = some (.frame (readyFrame c 0))
      ∧ (readyFrame c 0).head? = some 0
      ∧ (∀ k j rest, sessionLoop c runFlag k (j :: rest)
          = .frame (bestSolutionFrame c (roundBest c j))
            :: .sleep (5 + c.buffer)
            :: .frame (readyFrame c (k + 1))
            :: sessionLoop c runFlag (k + 1) rest)
      ∧ (bestSolutionFrame c (roundBest c (Job.mk [] 0 0 0))).head? = some 2
      ∧ countFrames 2 (sessionEvents c runFlag jobs) = jobs.length
      ∧ countFrames 0 (sessionEvents c runFlag jobs) = jobs.length + 1
      ∧ (c.buffer = 2 → (5 + c.buffer : Nat) = 7) := by
  have hloop := countFrames_sessionLoop c runFlag hrf jobs 0
  refine ⟨rfl, rfl, ?_, rfl, ?_, ?_, ?_⟩
  · intro k j rest
    simp [sessionLoop, hrf, roundEvents]
  · unfold sessionEvents countFrames at *
    simp only [List.countP_cons, readyFrame_head]
    simp only [hloop.1]
    simp
  · unfold sessionEvents countFrames at *
    simp only [List.countP_cons, readyFrame_head]
    simp only [hloop.2]
    simp
  · intro h; rw [h]

/-- A concrete session environment used by the witnesses: two enumerated
cores, two configured threads, `--buffer = 2`, the flag never set, a clock
starting at 1700000000, and a hash family giving each nonce one hash of
difficulty `n % 10`. -/
def exCtx : Ctx where
  pk := List.replicate 32 7
  sign := fun m => m ++ [33]
  Hf := fun _ n => [⟨List.replicate 16 (n % 256), n % 10⟩]
  run := fun _ => true
  elapsed := fun _ => 0
  coreIds := [0, 1]
  threads := 2
  buffer := 2
  clock := fun k => 1700000000 + k

/-- A concrete small job for the witnesses. -/
def exJob : Job := ⟨List.replicate 32 17, 0, 1, 5⟩

/-- C6 witness: a session handling one job emits exactly one BestSolution
frame and two Ready frames. -/
theorem claim_C6_session_ordering_witness :
    countFrames 2 (sessionEvents exCtx (fun _ => true) [exJob]) = [exJob].length
      ∧ countFrames 0 (sessionEvents exCtx (fun _ => true) [exJob])
          = [exJob].length + 1 :=
  ⟨(claim_C6_session_ordering exCtx (fun _ => true) [exJob] (fun _ => rfl)).2.2.2.2.1,
   (claim_C6_session_ordering exCtx (fun _ => true) [exJob] (fun _ => rfl)).2.2.2.2.2.1⟩

/-! ## Search-loop lemmas -/

theorem hashStep_nonce (s : SearchState) (hx : MHash) :
    (hashStep s hx).nonce = s.nonce := by
  unfold hashStep; split <;> rfl

theorem hashStep_bd (s : SearchState) (hx : MHash) :
    (hashStep s hx).bestDifficulty = max s.bestDifficulty hx.difficulty := by
  unfold hashStep; split <;> simp <;> omega

theorem hashFold_nonce (hxs : List MHash) (s : SearchState) :
    (hashFold hxs s).nonce = s.nonce := by
  induction hxs generalizing s with
  | nil => rfl
  | cons hx hxs ih =>
    show (hashFold hxs (hashStep s hx)).nonce = s.nonce
    rw [ih, hashStep_nonce]

theorem hashFold_bd_mono (hxs : List MHash) (s : SearchState) :
    s.bestDifficulty ≤ (hashFold hxs s).bestDifficulty := by
  induction hxs generalizing s with
  | nil => exact le_refl _
  | cons hx hxs ih =>
    have h1 := ih (hashStep s hx)
    have h2 := hashStep_bd s hx
    show s.bestDifficulty ≤ (hashFold hxs (hashStep s hx)).bestDifficulty
    omega

theorem hashFold_bd_ge (hxs : List MHash) (s : SearchState) :
    ∀ hx ∈ hxs, hx.difficulty ≤ (hashFold hxs s).bestDifficulty := by
  induction hxs generalizing s with
  | nil => intro hx h; simp at h
  | cons hy hxs ih =>
    intro hx h
    rcases List.mem_cons.mp h with rfl | hmem
    · have h1 := hashFold_bd_mono hxs (hashStep s hx)
      have h2 := hashStep_bd s hx
      show hx.difficulty ≤ (hashFold hxs (hashStep s hx)).bestDifficulty
      omega
    · exact ih (hashStep s hy) hx hmem

/-- A best record `(bn, bd, bh)` explainable by the search over `H` from
start nonce `lo` with range end `endN`: the nonce is in the visited band
and the stored hash is one of `H bn` with the stored difficulty. -/
def GoodRec (H : Nat → List MHash) (lo endN bn bd : Nat) (bh : MHash) : Prop :=
  lo ≤ bn ∧ bn ≤ max lo endN ∧ bh ∈ H bn ∧ bh.difficulty = bd

theorem hashStep_good {H : Nat → List MHash} {lo endN : Nat}
    (s : SearchState) (hx : MHash) (hin : hx ∈ H s.nonce)
    (hlo : lo ≤ s.nonce) (hhi : s.nonce ≤ max lo endN)
    (hg : 0 < s.bestDifficulty
      → GoodRec H lo endN s.bestNonce s.bestDifficulty s.bestHash) :
    0 < (hashStep s hx).bestDifficulty
      → GoodRec H lo endN (hashStep s hx).bestNonce
          (hashStep s hx).bestDifficulty (hashStep s hx).bestHash := by
  unfold hashStep; split
  · intro _
    exact ⟨hlo, hhi, hin, rfl⟩
  · intro h
    exact hg h

theorem hashFold_good {H : Nat → List MHash} {lo endN : Nat}
    (hxs : List MHash) (s : SearchState) (hsub : ∀ hx ∈ hxs, hx ∈ H s.nonce)
    (hlo : lo ≤ s.nonce) (hhi : s.nonce ≤ max lo endN)
    (hg : 0 < s.bestDifficulty
      → GoodRec H lo endN s.bestNonce s.bestDifficulty s.bestHash) :
    0 < (hashFold hxs s).bestDifficulty
      → GoodRec H lo endN (hashFold hxs s).bestNonce
          (hashFold hxs s).bestDifficulty (hashFold hxs s).bestHash := by
  induction hxs generalizing s with
  | nil => exact hg
  | cons hx hxs ih =>
    show 0 < (hashFold hxs (hashStep s hx)).bestDifficulty → _
    refine ih (hashStep s hx) ?_ ?_ ?_ ?_
    · intro hy hmem
      rw [hashStep_nonce]
      exact hsub hy (List.mem_cons_of_mem _ hmem)
    · rw [hashStep_nonce]; exact hlo
    · rw [hashStep_nonce]; exact hhi
    · exact hashStep_good s hx (hsub hx (List.mem_cons_self _ _)) hlo hhi hg

/-- Classification of one loop iteration. -/
theorem mineStep_cases (run : Nat → Bool) (elapsed : Nat → Nat)
    (cutoff nonceEnd : Nat) (H : Nat → List MHash) (st : SearchState) :
    (run st.nonce = false ∧ mineStep run elapsed cutoff nonceEnd H st = .abandon)
    ∨ (run st.nonce = true
        ∧ mineStep run elapsed cutoff nonceEnd H st
            = .stop (toResult (hashFold (H st.nonce) st))
        ∧ (nonceEnd ≤ st.nonce
            ∨ (st.nonce % 100 = 0 ∧ cutoff ≤ elapsed st.nonce
                ∧ 8 ≤ (hashFold (H st.nonce) st).bestDifficulty)))
    ∨ (run st.nonce = true
        ∧ mineStep run elapsed cutoff nonceEnd H st
            = .next { hashFold (H st.nonce) st with nonce := st.nonce + 1 }
        ∧ st.nonce < nonceEnd
        ∧ ¬(st.nonce % 100 = 0 ∧ cutoff ≤ elapsed st.nonce
              ∧ 8 ≤ (hashFold (H st.nonce) st).bestDifficulty)) := by
  unfold mineStep
  have hn := hashFold_nonce (H st.nonce) st
  by_cases h1 : run st.nonce = false
  · left; exact ⟨h1, by rw [if_pos h1]⟩
  · have h1' : run st.nonce = true := by
      cases h : run st.nonce
      · exact absurd h h1
      · rfl
    rw [if_neg h1]
    by_cases h2 : nonceEnd ≤ (hashFold (H st.nonce) st).nonce
    · right; left
      refine ⟨h1', by rw [if_pos h2], Or.inl ?_⟩
      rw [hn] at h2; exact h2
    · rw [if_neg h2]
      rw [hn] at h2
      by_cases h3 : (hashFold (H st.nonce) st).nonce % 100 = 0
          ∧ cutoff ≤ elapsed (hashFold (H st.nonce) st).nonce
          ∧ 8 ≤ (hashFold (H st.nonce) st).bestDifficulty
      · right; left
        refine ⟨h1', by rw [if_pos h3], Or.inr ?_⟩
        rw [hn] at h3; exact h3
      · right; right
        refine ⟨h1', ?_, by omega, ?_⟩
        · rw [if_neg h3]
          show StepRes.next _ = _
          congr 1
          simp [hn]
        · rw [hn] at h3; exact h3

theorem mineGo_succ (run : Nat → Bool) (elapsed : Nat → Nat)
    (cutoff nonceEnd : Nat) (H : Nat → List MHash) (fuel : Nat)
    (st : SearchState) :
    mineGo run elapsed cutoff nonceEnd H (fuel + 1) st
      = match mineStep run elapsed cutoff nonceEnd H st with
        | .abandon => none
        | .stop r => some r
        | .next st' => mineGo run elapsed cutoff nonceEnd H fuel st' := rfl

theorem mineVisits_succ (run : Nat → Bool) (elapsed : Nat → Nat)
    (cutoff nonceEnd : Nat) (H : Nat → List MHash) (fuel : Nat)
    (st : SearchState) :
    mineVisits run elapsed cutoff nonceEnd H (fuel + 1) st
      = match mineStep run elapsed cutoff nonceEnd H st with
        | .abandon => []
        | .stop _ => [st.nonce]
        | .next st' => st.nonce :: mineVisits run elapsed cutoff nonceEnd H fuel st' :=
  rfl

theorem mineGo_bd_mono (run : Nat → Bool) (elapsed : Nat → Nat)
    (cutoff nonceEnd : Nat) (H : Nat → List MHash) :
    ∀ (fuel : Nat) (st : SearchState) (r : ThreadResult),
      mineGo run elapsed cutoff nonceEnd H fuel st = some r
        → st.bestDifficulty ≤ r.bestDifficulty := by
  intro fuel
  induction fuel with
  | zero => intro st r hgo; simp [mineGo] at hgo
  | succ fuel ih =>
    intro st r hgo
    rw [mineGo_succ] at hgo
    rcases mineStep_cases run elapsed cutoff nonceEnd H st with
      ⟨hr, hs⟩ | ⟨hr, hs, hwhy⟩ | ⟨hr, hs, hlt, hnot⟩
    · rw [hs] at hgo; simp at hgo
    · rw [hs] at hgo
      simp only [Option.some.injEq] at hgo
      subst hgo
      exact hashFold_bd_mono (H st.nonce) st
    · rw [hs] at hgo
      have h1 := ih _ r hgo
      have h2 := hashFold_bd_mono (H st.nonce) st
      simp only at h1
      omega

theorem mineGo_good (run : Nat → Bool) (elapsed : Nat → Nat)
    (cutoff nonceEnd : Nat) (H : Nat → List MHash) (lo : Nat) :
    ∀ (fuel : Nat) (st : SearchState) (r : ThreadResult),
      lo ≤ st.nonce → st.nonce ≤ max lo nonceEnd
        → (0 < st.bestDifficulty
            → GoodRec H lo nonceEnd st.bestNonce st.bestDifficulty st.bestHash)
        → mineGo run elapsed cutoff nonceEnd H fuel st = some r
        → 0 < r.bestDifficulty
        → GoodRec H lo nonceEnd r.bestNonce r.bestDifficulty r.bestHash := by
  intro fuel
  induction fuel with
  | zero => intro st r _ _ _ hgo; simp [mineGo] at hgo
  | succ fuel ih =>
    intro st r hlo hhi hg hgo
    rw [mineGo_succ] at hgo
    rcases mineStep_cases run elapsed cutoff nonceEnd H st with
      ⟨hr, hs⟩ | ⟨hr, hs, hwhy⟩ | ⟨hr, hs, hlt, hnot⟩
    · rw [hs] at hgo; simp at hgo
    · rw [hs] at hgo
      simp only [Option.some.injEq] at hgo
      subst hgo
      exact hashFold_good (H st.nonce) st (fun _ h => h) hlo hhi hg
    · rw [hs] at hgo
      refine ih _ r ?_ ?_ ?_ hgo
      · show lo ≤ st.nonce + 1; omega
      · show st.nonce + 1 ≤ max lo nonceEnd; omega
      · show 0 < (hashFold (H st.nonce) st).bestDifficulty → _
        exact hashFold_good (H st.nonce) st (fun _ h => h) hlo hhi hg

theorem mineGo_obs (run : Nat → Bool) (elapsed : Nat → Nat)
    (cutoff nonceEnd : Nat) (H : Nat → List MHash) :
    ∀ (fuel : Nat) (st : SearchState) (r : ThreadResult),
      mineGo run elapsed cutoff nonceEnd H fuel st = some r
        → ∀ n ∈ mineVisits run elapsed cutoff nonceEnd H fuel st,
            ∀ hx ∈ H n, hx.difficulty ≤ r.bestDifficulty := by
  intro fuel
  induction fuel with
  | zero => intro st r hgo; simp [mineGo] at hgo
  | succ fuel ih =>
    intro st r hgo n hn hx hhx
    rw [mineGo_succ] at hgo
    rw [mineVisits_succ] at hn
    rcases mineStep_cases run elapsed cutoff nonceEnd H st with
      ⟨hr, hs⟩ | ⟨hr, hs, hwhy⟩ | ⟨hr, hs, hlt, hnot⟩
    · rw [hs] at hgo; simp at hgo
    · rw [hs] at hgo hn
      simp only [Option.some.injEq] at hgo
      subst hgo
      simp only [List.mem_singleton] at hn
      subst hn
      exact hashFold_bd_ge (H st.nonce) st hx hhx
    · rw [hs] at hgo hn
      rcases List.mem_cons.mp hn with rfl | hmem
      · have h1 := hashFold_bd_ge (H st.nonce) st hx hhx
        have h2 := mineGo_bd_mono run elapsed cutoff nonceEnd H fuel _ r hgo
        simp only at h2
        omega
      · exact ih _ r hgo n hmem hx hhx

theorem mineVisits_bounds (run : Nat → Bool) (elapsed : Nat → Nat)
    (cutoff nonceEnd : Nat) (H : Nat → List MHash) :
    ∀ (fuel : Nat) (st : SearchState),
      ∀ n ∈ mineVisits run elapsed cutoff nonceEnd H fuel st,
        st.nonce ≤ n ∧ n ≤ max st.nonce nonceEnd := by
  intro fuel
  induction fuel with
  | zero => intro st n hn; simp [mineVisits] at hn
  | succ fuel ih =>
    intro st n hn
    rw [mineVisits_succ] at hn
    rcases mineStep_cases run elapsed cutoff nonceEnd H st with
      ⟨hr, hs⟩ | ⟨hr, hs, hwhy⟩ | ⟨hr, hs, hlt, hnot⟩
    · rw [hs] at hn; simp at hn
    · rw [hs] at hn
      simp only [List.mem_singleton] at hn
      subst hn
      exact ⟨le_refl _, le_max_left _ _⟩
    · rw [hs] at hn
      rcases List.mem_cons.mp hn with rfl | hmem
      · exact ⟨le_refl _, le_max_left _ _⟩
      · have h1 := ih _ n hmem
        simp only at h1
        omega

theorem mineVisits_headq (run : Nat → Bool) (elapsed : Nat → Nat)
    (cutoff nonceEnd : Nat) (H : Nat → List MHash) (fuel : Nat)
    (st : SearchState) :
    mineVisits run elapsed cutoff nonceEnd H fuel st = []
      ∨ (mineVisits run elapsed cutoff nonceEnd H fuel st).head? = some st.nonce := by
  cases fuel with
  | zero => left; rfl
  | succ fuel =>
    rw [mineVisits_succ]
    rcases mineStep_cases run elapsed cutoff nonceEnd H st with
      ⟨hr, hs⟩ | ⟨hr, hs, hwhy⟩ | ⟨hr, hs, hlt, hnot⟩ <;> rw [hs]
    · left; rfl
    · right; rfl
    · right; rfl

theorem mineVisits_chain (run : Nat → Bool) (elapsed : Nat → Nat)
    (cutoff nonceEnd : Nat) (H : Nat → List MHash) :
    ∀ (fuel : Nat) (st : SearchState),
      List.Chain' (fun a b => a < b)
        (mineVisits run elapsed cutoff nonceEnd H fuel st) := by
  intro fuel
  induction fuel with
  | zero => intro st; exact List.chain'_nil
  | succ fuel ih =>
    intro st
    rw [mineVisits_succ]
    rcases mineStep_cases run elapsed cutoff nonceEnd H st with
      ⟨hr, hs⟩ | ⟨hr, hs, hwhy⟩ | ⟨hr, hs, hlt, hnot⟩ <;> rw [hs]
    · exact List.chain'_nil
    · exact List.chain'_singleton _
    · refine List.chain'_cons'.mpr ⟨?_, ih _⟩
      intro y hy
      rcases mineVisits_headq run elapsed cutoff nonceEnd H fuel
          { hashFold (H st.nonce) st with nonce := st.nonce + 1 } with hnil | hhead
      · rw [hnil] at hy; simp at hy
      · rw [hhead] at hy
        simp only [Option.mem_def, Option.some.injEq] at hy
        subst hy
        show st.nonce < st.nonce + 1
        omega

theorem mineVisits_ne_nil (run : Nat → Bool) (elapsed : Nat → Nat)
    (cutoff nonceEnd : Nat) (H : Nat → List MHash) (fuel : Nat)
    (st : SearchState) (hr : run st.nonce = true) :
    mineVisits run elapsed cutoff nonceEnd H (fuel + 1) st ≠ [] := by
  rw [mineVisits_succ]
  rcases mineStep_cases run elapsed cutoff nonceEnd H st with
    ⟨hr2, hs⟩ | ⟨hr2, hs, hwhy⟩ | ⟨hr2, hs, hlt, hnot⟩ <;> rw [hs] <;> simp
  rw [hr] at hr2; exact absurd hr2 (by simp)

theorem mineGo_none_of_cancelled (run : Nat → Bool) (elapsed : Nat → Nat)
    (cutoff nonceEnd : Nat) (H : Nat → List MHash) (fuel : Nat)
    (st : SearchState) (hrun : ∀ n, run n = false) :
    mineGo run elapsed cutoff nonceEnd H fuel st = none := by
  cases fuel with
  | zero => rfl
  | succ fuel =>
    rw [mineGo_succ]
    rcases mineStep_cases run elapsed cutoff nonceEnd H st with
      ⟨hr, hs⟩ | ⟨hr, hs, hwhy⟩ | ⟨hr, hs, hlt, hnot⟩
    · rw [hs]
    · rw [hrun st.nonce] at hr; exact absurd hr (by simp)
    · rw [hrun st.nonce] at hr; exact absurd hr (by simp)

/-! ## Join-reduction lemmas -/

/-- The record part of one join-loop step on a successfully joined `Some`
result. -/
def bestStep (acc : BestRecord) (r : ThreadResult) : BestRecord :=
  if acc.bestDifficulty < r.bestDifficulty then
    ⟨r.bestNonce, r.bestDifficulty, r.bestHash⟩
  else acc

def bestFold (b : BestRecord) (L : List ThreadResult) : BestRecord :=
  L.foldl bestStep b

/-- Maximum difficulty over a list of thread results. -/
def maxL (L : List ThreadResult) : Nat :=
  L.foldr (fun r a => max r.bestDifficulty a) 0

/-- The record reduced by the join loop ignores `None` results and totals:
it is the `bestStep` fold over the contributed results. -/
theorem joinFold_fst (rs : List (Option ThreadResult)) :
    ∀ (b : BestRecord) (t : Nat),
      (rs.foldl joinFold (b, t)).1 = bestFold b (rs.filterMap id) := by
  induction rs with
  | nil => intro b t; rfl
  | cons o rs ih =>
    intro b t
    cases o with
    | none =>
      show (rs.foldl joinFold (joinFold (b, t) none)).1 = _
      have h0 : joinFold (b, t) none = (b, t) := rfl
      have h1 : List.filterMap id (none :: rs) = List.filterMap id rs := by simp
      rw [h0, h1]
      exact ih b t
    | some r =>
      show (rs.foldl joinFold (joinFold (b, t) (some r))).1 = _
      have hstep : joinFold (b, t) (some r) = (bestStep b r, t + r.totalHashes) := by
        by_cases h : b.bestDifficulty < r.bestDifficulty <;>
          simp [joinFold, bestStep, h]
      have h1 : List.filterMap id (some r :: rs) = r :: List.filterMap id rs := by
        simp
      rw [hstep, h1]
      show _ = bestFold (bestStep b r) (List.filterMap id rs)
      exact ih (bestStep b r) (t + r.totalHashes)

theorem maxL_cons (r : ThreadResult) (L : List ThreadResult) :
    maxL (r :: L) = max r.bestDifficulty (maxL L) := rfl

theorem maxL_ge (L : List ThreadResult) :
    ∀ r ∈ L, r.bestDifficulty ≤ maxL L := by
  induction L with
  | nil => intro r h; simp at h
  | cons s L ih =>
    intro r h
    rw [maxL_cons]
    rcases List.mem_cons.mp h with rfl | hm
    · omega
    · have := ih r hm; omega

theorem bestStep_bd (b : BestRecord) (r : ThreadResult) :
    (bestStep b r).bestDifficulty = max b.bestDifficulty r.bestDifficulty := by
  unfold bestStep; split <;> simp <;> omega

theorem bestFold_bd (L : List ThreadResult) :
    ∀ b : BestRecord,
      (bestFold b L).bestDifficulty = max b.bestDifficulty (maxL L) := by
  induction L with
  | nil => intro b; simp [bestFold, maxL]
  | cons r L ih =>
    intro b
    show (bestFold (bestStep b r) L).bestDifficulty = _
    rw [ih (bestStep b r), bestStep_bd, maxL_cons]
    omega

theorem bestFold_stable (L : List ThreadResult) :
    ∀ b : BestRecord, maxL L ≤ b.bestDifficulty → bestFold b L = b := by
  induction L with
  | nil => intro b _; rfl
  | cons r L ih =>
    intro b hb
    rw [maxL_cons] at hb
    show bestFold (bestStep b r) L = b
    have hstep : bestStep b r = b := by
      unfold bestStep
      rw [if_neg (by omega)]
    rw [hstep]
    exact ih b (by omega)

/-- Strict-greater selection retains the first record attaining the
maximum: when some contributed record beats the accumulator, the fold
returns the first record of difficulty `maxL L` in join order. -/
theorem bestFold_find (L : List ThreadResult) :
    ∀ b : BestRecord, b.bestDifficulty < maxL L →
      ∃ r, L.find? (fun r => decide (maxL L ≤ r.bestDifficulty)) = some r
        ∧ bestFold b L = ⟨r.bestNonce, r.bestDifficulty, r.bestHash⟩
        ∧ r.bestDifficulty = maxL L := by
  induction L with
  | nil => intro b hb; simp [maxL] at hb
  | cons s L ih =>
    intro b hb
    rw [maxL_cons] at hb
    by_cases hc : maxL L ≤ s.bestDifficulty
    · have hm : maxL (s :: L) = s.bestDifficulty := by rw [maxL_cons]; omega
      refine ⟨s, ?_, ?_, hm.symm⟩
      · apply List.find?_cons_of_pos
        simp [hm]
      · have hstep : bestStep b s = ⟨s.bestNonce, s.bestDifficulty, s.bestHash⟩ := by
          unfold bestStep
          rw [if_pos (by omega)]
        show bestFold (bestStep b s) L = _
        rw [hstep]
        exact bestFold_stable L _ hc
    · have hm : maxL (s :: L) = maxL L := by rw [maxL_cons]; omega
      have hbd : (bestStep b s).bestDifficulty < maxL L := by
        rw [bestStep_bd]; omega
      obtain ⟨r, hfind, hfold, hrd⟩ := ih (bestStep b s) hbd
      refine ⟨r, ?_, hfold, by rw [hm]; exact hrd⟩
      have hp : (fun r : ThreadResult => decide (maxL (s :: L) ≤ r.bestDifficulty))
          = fun r : ThreadResult => decide (maxL L ≤ r.bestDifficulty) := by
        rw [hm]
      rw [hp, List.find?_cons_of_neg]
      · exact hfind
      · simp only [decide_eq_true_eq]
        omega

/-- The thread results that joined successfully with a contribution, in
join order. -/
def contributed (c : Ctx) (j : Job) : List ThreadResult :=
  (roundResults c j).filterMap id

/-- The largest contributed difficulty of a round. -/
def maxContrib (c : Ctx) (j : Job) : Nat := maxL (contributed c j)

theorem roundBest_eq_bestFold (c : Ctx) (j : Job) :
    roundBest c j = bestFold initBest (contributed c j) := by
  unfold roundBest joinReduce contributed
  exact joinFold_fst (roundResults c j) initBest 0

theorem roundBest_bd (c : Ctx) (j : Job) :
    (roundBest c j).bestDifficulty = maxContrib c j := by
  rw [roundBest_eq_bestFold, bestFold_bd]
  show max 0 (maxL (contributed c j)) = maxContrib c j
  unfold maxContrib
  omega

theorem threadRun_some (c : Ctx) (j : Job) (i : Nat) (r : ThreadResult)
    (hr : threadRun c j i = some r) :
    i < c.threads
      ∧ mineGo c.run c.elapsed (effectiveCutoff j.cutoff c.buffer) j.nonceEnd
          (c.Hf j.challenge)
          (searchFuel (wrap64 (j.nonceStart + noncesPerThread * i)) j.nonceEnd)
          (initState (wrap64 (j.nonceStart + noncesPerThread * i))) = some r := by
  unfold threadRun at hr
  by_cases hti : c.threads ≤ i
  · rw [if_pos hti] at hr; exact absurd hr (by simp)
  · rw [if_neg hti] at hr
    exact ⟨by omega, hr⟩

/-- C8: the join reduction selects by strict-greater difficulty, so its
difficulty is the maximum contributed difficulty, no contribution leaves
the initial all-zero record, a positive maximum selects the first record
attaining it in thread-join order (ties retain the first), and the
returned difficulty dominates every per-hash difficulty observed by every
thread that ran to completion. -/
theorem claim_C8_reduction (c : Ctx) (j : Job) :
    (roundBest c j).bestDifficulty = maxContrib c j
      ∧ (maxContrib c j = 0 → roundBest c j = initBest)
      ∧ (0 < maxContrib c j →
          ∃ r, (contributed c j).find?
              (fun r => decide (maxContrib c j ≤ r.bestDifficulty)) = some r
            ∧ roundBest c j = ⟨r.bestNonce, r.bestDifficulty, r.bestHash⟩
            ∧ r.bestDifficulty = maxContrib c j)
      ∧ (∀ i ∈ c.coreIds, ∀ r, threadRun c j i = some r
          → ∀ d ∈ threadObs c j i, d ≤ (roundBest c j).bestDifficulty) := by
  refine ⟨roundBest_bd c j, ?_, ?_, ?_⟩
  · intro h0
    rw [roundBest_eq_bestFold]
    refine bestFold_stable _ _ ?_
    show maxL (contributed c j) ≤ 0
    unfold maxContrib at h0
    omega
  · intro hpos
    have hinit : (initBest).bestDifficulty < maxL (contributed c j) := by
      show 0 < maxL (contributed c j)
      unfold maxContrib at hpos
      exact hpos
    obtain ⟨r, hfind, hfold, hrd⟩ := bestFold_find (contributed c j) initBest hinit
    exact ⟨r, hfind, by rw [roundBest_eq_bestFold]; exact hfold, hrd⟩
  · intro i hi r hr d hd
    obtain ⟨hit, hgo⟩ := threadRun_some c j i r hr
    have hvis : threadVisits c j i
        = mineVisits c.run c.elapsed (effectiveCutoff j.cutoff c.buffer) j.nonceEnd
            (c.Hf j.challenge)
            (searchFuel (wrap64 (j.nonceStart + noncesPerThread * i)) j.nonceEnd)
            (initState (wrap64 (j.nonceStart + noncesPerThread * i))) := by
      unfold threadVisits
      rw [if_neg (by omega)]
    unfold threadObs at hd
    rw [hvis] at hd
    obtain ⟨n, hn, hdm⟩ := List.mem_flatMap.mp hd
    obtain ⟨hx, hhx, hdx⟩ := List.mem_map.mp hdm
    have h1 : hx.difficulty ≤ r.bestDifficulty :=
      mineGo_obs c.run c.elapsed (effectiveCutoff j.cutoff c.buffer) j.nonceEnd
        (c.Hf j.challenge) _ _ r hgo n hn hx hhx
    have h2 : r ∈ contributed c j := by
      unfold contributed
      refine List.mem_filterMap.mpr ⟨some r, ?_, rfl⟩
      unfold roundResults
      exact List.mem_map.mpr ⟨i, hi, hr⟩
    have h3 := maxL_ge (contributed c j) r h2
    rw [roundBest_bd]
    unfold maxContrib
    omega

/-- C8 witness: a concrete round where the first thread contributes
difficulty 1 and the second difficulty 0: the reduction keeps the first
thread's record. -/
theorem claim_C8_reduction_witness :
    ∃ r, (contributed exCtx exJob).find?
        (fun r => decide (maxContrib exCtx exJob ≤ r.bestDifficulty)) = some r
      ∧ roundBest exCtx exJob = ⟨r.bestNonce, r.bestDifficulty, r.bestHash⟩
      ∧ r.bestDifficulty = maxContrib exCtx exJob :=
  (claim_C8_reduction exCtx exJob).2.2.1 (by decide)

/-- A context whose hash family produces no hash for any nonce and with
the default `--buffer = 0`; used for the counterexamples. -/
def cexCtx : Ctx := { exCtx with Hf := fun _ _ => [], buffer := 0 }

/-- A job whose nonce range is `[5, 6)`. -/
def cexJob : Job := ⟨List.replicate 32 17, 5, 6, 10⟩

/-- C1 counterexample: when no hash beats difficulty 0, the round submits
the initial join record — nonce 0, outside the job range `[5, 6)`, with a
digest that `H` does not produce at nonce 0 (here `H` produces nothing at
all) — so the claimed invariant fails on the emitted BestSolution. -/
theorem claim_C1_counterexample :
    (roundBest cexCtx cexJob).bestNonce = 0
      ∧ ¬(cexJob.nonceStart ≤ (roundBest cexCtx cexJob).bestNonce)
      ∧ cexCtx.Hf cexJob.challenge ((roundBest cexCtx cexJob).bestNonce) = [] := by
  decide

/-- C1 amended: whenever the submitted BestSolution has positive
difficulty, it originates from some spawned thread `i < threads`: with
`first_nonce = (start + 10000·i) mod 2^64` (the `u64` wrapping sum the
source computes), its nonce lies in
`[first_nonce, max first_nonce range.end]` (the range end itself, and the
whole start offset when that exceeds the end, are reachable — not the
claimed `[start, end)`), and recomputing `H` at that nonce yields the
submitted hash, whose digest and difficulty equal the submitted ones.
When the submitted difficulty is 0 the round submits the initial record:
nonce 0 and the all-zero digest, regardless of the job's range. -/
theorem claim_C1_submitted_solution (c : Ctx) (j : Job) :
    (0 < (roundBest c j).bestDifficulty →
      ∃ i ∈ c.coreIds, i < c.threads
        ∧ wrap64 (j.nonceStart + noncesPerThread * i) ≤ (roundBest c j).bestNonce
        ∧ (roundBest c j).bestNonce
            ≤ max (wrap64 (j.nonceStart + noncesPerThread * i)) j.nonceEnd
        ∧ (roundBest c j).bestHash ∈ c.Hf j.challenge ((roundBest c j).bestNonce)
        ∧ (roundBest c j).bestHash.difficulty = (roundBest c j).bestDifficulty)
      ∧ ((roundBest c j).bestDifficulty = 0 → roundBest c j = initBest) := by
  constructor
  · intro hpos
    have hmx : 0 < maxContrib c j := by rw [roundBest_bd] at hpos; exact hpos
    have hinit : (initBest).bestDifficulty < maxL (contributed c j) := by
      show 0 < maxL (contributed c j)
      unfold maxContrib at hmx
      exact hmx
    obtain ⟨r, hfind, hfold, hrd⟩ := bestFold_find (contributed c j) initBest hinit
    have hrb : roundBest c j = ⟨r.bestNonce, r.bestDifficulty, r.bestHash⟩ := by
      rw [roundBest_eq_bestFold]; exact hfold
    have hrc : r ∈ contributed c j := List.mem_of_find?_eq_some hfind
    obtain ⟨o, ho, hor⟩ := List.mem_filterMap.mp hrc
    obtain ⟨i, hi, hti⟩ := List.mem_map.mp ho
    have hsome : threadRun c j i = some r := by rw [hti]; exact hor
    obtain ⟨hit, hgo⟩ := threadRun_some c j i r hsome
    have hrpos : 0 < r.bestDifficulty := by
      rw [hrb] at hpos; exact hpos
    have hgood := mineGo_good c.run c.elapsed (effectiveCutoff j.cutoff c.buffer)
      j.nonceEnd (c.Hf j.challenge) (wrap64 (j.nonceStart + noncesPerThread * i))
      _ _ r (le_refl _) (le_max_left _ _)
      (fun h => absurd h (by simp [initState])) hgo hrpos
    obtain ⟨g1, g2, g3, g4⟩ := hgood
    rw [hrb]
    exact ⟨i, hi, hit, g1, g2, g3, g4⟩
  · intro h0
    rw [roundBest_bd] at h0
    rw [roundBest_eq_bestFold]
    refine bestFold_stable _ _ ?_
    show maxL (contributed c j) ≤ 0
    unfold maxContrib at h0
    omega

/-- C1 amended, witness: a round that finds a positive-difficulty solution
satisfies the per-thread origin properties. -/
theorem claim_C1_submitted_solution_witness :
    0 < (roundBest exCtx exJob).bestDifficulty
      ∧ ∃ i ∈ exCtx.coreIds, i < exCtx.threads
          ∧ wrap64 (exJob.nonceStart + noncesPerThread * i) ≤ (roundBest exCtx exJob).bestNonce
          ∧ (roundBest exCtx exJob).bestNonce
              ≤ max (wrap64 (exJob.nonceStart + noncesPerThread * i)) exJob.nonceEnd
          ∧ (roundBest exCtx exJob).bestHash
              ∈ exCtx.Hf exJob.challenge ((roundBest exCtx exJob).bestNonce)
          ∧ (roundBest exCtx exJob).bestHash.difficulty
              = (roundBest exCtx exJob).bestDifficulty :=
  ⟨by decide, (claim_C1_submitted_solution exCtx exJob).1 (by decide)⟩

/-- A job whose nonce range is `[0, 1)`, shorter than one partition
stride. -/
def c9Job : Job := ⟨List.replicate 32 17, 0, 1, 5⟩

/-- C9 counterexample: with range `[0, 1)` and two threads, the thread on
core 1 starts at `0 + 10000·1 = 10000` and hashes that nonce before the
range check, so it visits a nonce beyond `range.end` — the walk is not
bounded by `range.end`. -/
theorem claim_C9_counterexample :
    threadVisits cexCtx c9Job 1 = [10000]
      ∧ c9Job.nonceEnd = 1
      ∧ ¬(∀ n ∈ threadVisits cexCtx c9Job 1, n ≤ c9Job.nonceEnd) := by
  decide

/-- C9 amended: each spawned thread on core `i < threads` starts at
`first_nonce = (range.start + 10000·i) mod 2^64` — the `u64` wrapping sum
the source computes — (when not cancelled before its first poll, the first
visited nonce is `first_nonce`), walks strictly increasing nonces bounded
by `max first_nonce range.end` (not by `range.end`: the range end itself
is hashed before the exit check, and a start offset beyond the end is
hashed once), and contributes at most one best result; every thread with
`i ≥ threads` exits immediately with no contribution and visits
nothing. -/
theorem claim_C9_partition (c : Ctx) (j : Job) (i : Nat) (_hi : i ∈ c.coreIds) :
    (c.threads ≤ i → threadRun c j i = none ∧ threadVisits c j i = [])
      ∧ (i < c.threads →
          (∀ n ∈ threadVisits c j i,
              wrap64 (j.nonceStart + noncesPerThread * i) ≤ n
                ∧ n ≤ max (wrap64 (j.nonceStart + noncesPerThread * i)) j.nonceEnd)
            ∧ List.Chain' (fun a b => a < b) (threadVisits c j i)
            ∧ (c.run (wrap64 (j.nonceStart + noncesPerThread * i)) = true →
                (threadVisits c j i).head?
                  = some (wrap64 (j.nonceStart + noncesPerThread * i)))
            ∧ (threadRun c j i = none ∨ ∃ r, threadRun c j i = some r)) := by
  constructor
  · intro h
    constructor
    · unfold threadRun; rw [if_pos h]
    · unfold threadVisits; rw [if_pos h]
  · intro hlt
    have hv : threadVisits c j i
        = mineVisits c.run c.elapsed (effectiveCutoff j.cutoff c.buffer) j.nonceEnd
            (c.Hf j.challenge)
            (searchFuel (wrap64 (j.nonceStart + noncesPerThread * i)) j.nonceEnd)
            (initState (wrap64 (j.nonceStart + noncesPerThread * i))) := by
      unfold threadVisits
      rw [if_neg (by omega)]
    refine ⟨?_, ?_, ?_, ?_⟩
    · intro n hn
      rw [hv] at hn
      exact mineVisits_bounds c.run c.elapsed (effectiveCutoff j.cutoff c.buffer)
        j.nonceEnd (c.Hf j.challenge) _ (initState _) n hn
    · rw [hv]
      exact mineVisits_chain c.run c.elapsed (effectiveCutoff j.cutoff c.buffer)
        j.nonceEnd (c.Hf j.challenge) _ _
    · intro hrun
      rw [hv]
      have hne : mineVisits c.run c.elapsed (effectiveCutoff j.cutoff c.buffer)
          j.nonceEnd (c.Hf j.challenge)
          (searchFuel (wrap64 (j.nonceStart + noncesPerThread * i)) j.nonceEnd)
          (initState (wrap64 (j.nonceStart + noncesPerThread * i))) ≠ [] := by
        show mineVisits c.run c.elapsed (effectiveCutoff j.cutoff c.buffer)
            j.nonceEnd (c.Hf j.challenge)
            ((j.nonceEnd + 1 - (wrap64 (j.nonceStart + noncesPerThread * i))) + 1)
            (initState (wrap64 (j.nonceStart + noncesPerThread * i))) ≠ []
        exact mineVisits_ne_nil c.run c.elapsed (effectiveCutoff j.cutoff c.buffer)
          j.nonceEnd (c.Hf j.challenge) _ (initState _) hrun
      rcases mineVisits_headq c.run c.elapsed (effectiveCutoff j.cutoff c.buffer)
          j.nonceEnd (c.Hf j.challenge)
          (searchFuel (wrap64 (j.nonceStart + noncesPerThread * i)) j.nonceEnd)
          (initState (wrap64 (j.nonceStart + noncesPerThread * i))) with hnil | hh
      · exact absurd hnil hne
      · exact hh
    · cases h : threadRun c j i with
      | none => exact Or.inl rfl
      | some r => exact Or.inr ⟨r, rfl⟩

/-- C9 amended, witness: the thread on core 0 starts at
`range.start + 10000·0`. -/
theorem claim_C9_partition_witness :
    (threadVisits cexCtx c9Job 0).head?
      = some (wrap64 (c9Job.nonceStart + noncesPerThread * 0)) :=
  ((claim_C9_partition cexCtx c9Job 0 (by decide)).2 (by decide)).2.2.1 (by decide)

/-- The context with the cancellation flag observed set at every poll. -/
def c3Ctx : Ctx := { exCtx with run := fun _ => false }

/-- C3 counterexample: with the flag set during the search, every thread
abandons and contributes nothing, yet the session still emits a
BestSolution frame (type byte 0x02) for the job — carrying the default
record — contradicting the claim that no BestSolution frame is emitted. -/
theorem claim_C3_counterexample :
    (∀ i ∈ c3Ctx.coreIds, threadRun c3Ctx exJob i = none)
      ∧ OutEvent.frame (bestSolutionFrame c3Ctx initBest)
          ∈ sessionEvents c3Ctx (fun _ => true) [exJob]
      ∧ (bestSolutionFrame c3Ctx initBest).head? = some 2 := by
  decide

/-- C3 amended: once the cancellation flag is set (observed at every
nonce poll), every search thread abandons and contributes nothing and the
partial results are discarded; the session nevertheless emits one
BestSolution frame carrying the default record (nonce 0, difficulty 0,
all-zero digest), sleeps, emits a Ready, and the receive loop exits at the
next message-intake check of the flag, returning control to the
supervisor. -/
theorem claim_C3_cancelled (c : Ctx) (j : Job) (hrun : ∀ n, c.run n = false) :
    (∀ i ∈ c.coreIds, threadRun c j i = none)
      ∧ roundBest c j = initBest
      ∧ (∀ k, roundEvents c k j
          = [.frame (bestSolutionFrame c initBest), .sleep (5 + c.buffer),
             .frame (readyFrame c (k + 1))])
      ∧ (∀ (runFlag : Nat → Bool) k jobs, runFlag k = false
          → sessionLoop c runFlag k jobs = []) := by
  have hthread : ∀ i, threadRun c j i = none := by
    intro i
    unfold threadRun
    by_cases h : c.threads ≤ i
    · rw [if_pos h]
    · rw [if_neg h]
      exact mineGo_none_of_cancelled c.run c.elapsed
        (effectiveCutoff j.cutoff c.buffer) j.nonceEnd (c.Hf j.challenge) _ _ hrun
  have hcontrib : contributed c j = [] := by
    unfold contributed
    refine List.filterMap_eq_nil_iff.mpr ?_
    intro o ho
    obtain ⟨i, _, hio⟩ := List.mem_map.mp ho
    rw [← hio, hthread i]
    rfl
  have hbest : roundBest c j = initBest := by
    rw [roundBest_eq_bestFold, hcontrib]
    rfl
  refine ⟨fun i _ => hthread i, hbest, ?_, ?_⟩
  · intro k
    unfold roundEvents
    rw [hbest]
  · intro runFlag k jobs hk
    cases jobs with
    | nil => rfl
    | cons x xs => simp [sessionLoop, hk]

/-- C3 amended, witness: with the flag set, the round reduces to the
default record. -/
theorem claim_C3_cancelled_witness : roundBest c3Ctx exJob = initBest :=
  (claim_C3_cancelled c3Ctx exJob (fun _ => rfl)).2.1

/-- C7: within a live iteration (flag unset, nonce below range end), the
throttled early exit is checked only at nonces divisible by 100; there,
after the nonce's hashes are folded in, the thread stops if and only if
the elapsed seconds have reached the effective cutoff and the local best
difficulty is at least 8; below difficulty 8 (or off the 100 boundary) it
continues to the next nonce past the cutoff. -/
theorem claim_C7_throttled_cutoff (run : Nat → Bool) (elapsed : Nat → Nat)
    (cutoff nonceEnd : Nat) (H : Nat → List MHash) (st : SearchState)
    (hrun : run st.nonce = true) (hlt : st.nonce < nonceEnd) :
    (st.nonce % 100 ≠ 0 →
        mineStep run elapsed cutoff nonceEnd H st
          = .next { hashFold (H st.nonce) st with nonce := st.nonce + 1 })
      ∧ (st.nonce % 100 = 0 →
          (mineStep run elapsed cutoff nonceEnd H st
              = .stop (toResult (hashFold (H st.nonce) st))
            ↔ cutoff ≤ elapsed st.nonce
                ∧ 8 ≤ (hashFold (H st.nonce) st).bestDifficulty))
      ∧ (st.nonce % 100 = 0 → (hashFold (H st.nonce) st).bestDifficulty < 8 →
          mineStep run elapsed cutoff nonceEnd H st
            = .next { hashFold (H st.nonce) st with nonce := st.nonce + 1 }) := by
  rcases mineStep_cases run elapsed cutoff nonceEnd H st with
    ⟨hr, _⟩ | ⟨_, hs, hwhy⟩ | ⟨_, hs, _, hnot⟩
  · rw [hrun] at hr; exact absurd hr (by simp)
  · rcases hwhy with hend | ⟨h100, helap, hbd⟩
    · omega
    · refine ⟨fun h => absurd h100 h, fun _ => ?_, fun _ hbd2 => by omega⟩
      exact ⟨fun _ => ⟨helap, hbd⟩, fun _ => hs⟩
  · refine ⟨fun _ => hs, fun h100 => ?_, fun _ _ => hs⟩
    constructor
    · intro hstop
      rw [hs] at hstop
      exact absurd hstop (by simp)
    · intro ⟨helap, hbd⟩
      exact absurd ⟨h100, helap, hbd⟩ hnot

/-- The hash family for the C7 witness: one hash of difficulty 9 at every
nonce. -/
def w7H : Nat → List MHash := fun _ => [⟨List.replicate 16 1, 9⟩]

/-- C7 witness: at nonce 100 with elapsed 100 ≥ cutoff 10 and best
difficulty 9 ≥ 8, the iteration stops. -/
theorem claim_C7_throttled_cutoff_witness :
    mineStep (fun _ => true) (fun _ => 100) 10 200 w7H (initState 100)
      = .stop (toResult (hashFold (w7H 100) (initState 100))) :=
  ((claim_C7_throttled_cutoff (fun _ => true) (fun _ => 100) 10 200 w7H
      (initState 100) (by decide) (by decide)).2.1 (by decide)).mpr (by decide)
